import Mathlib

/-!
Verification development for the `nrobust` specification-curve regression
engine (`src/nrobust/models.py` and its helper modules).

Each Python routine relevant to the checked claims is shallowly embedded as a
Lean definition; machine-level concerns (numpy arrays, pandas frames) are
modelled by lists, with pandas row indices made explicit where the code
manipulates them.  Randomness (resampling, permutation) is modelled by
universally quantified parameters: a property proved for every possible draw
holds in particular for the random one.
-/

namespace NRobust

/-! ### Subset enumeration (`all_subsets`, `space_size`)

Modelled from the spec: the functions `all_subsets` and `space_size` live in
`nrobust/utils.py`, which is not part of the provided sources (only their call
sites in `models.py` are).  The spec describes the enumeration as: all 2^N
subsets in order of increasing subset size, lexicographically by input order
within each size, empty set first, full set last, with
`space_size(N) = 2^N`. -/

/-- Modelled from the spec: all subsets of size `k` of the pool `l`,
lexicographically by input order (the order `itertools.combinations`
produces). -/
def subsetsOfSize {α : Type} : ℕ → List α → List (List α)
  | 0, _ => [[]]
  | _ + 1, [] => []
  | k + 1, x :: xs =>
      ((subsetsOfSize k xs).map (fun s => x :: s)) ++ subsetsOfSize (k + 1) xs

/-- Modelled from the spec: `all_subsets` from `nrobust/utils.py` — the power
set of the pool, enumerated by increasing subset size and lexicographically by
input order within each size. -/
def allSubsets {α : Type} (l : List α) : List (List α) :=
  (List.range (l.length + 1)).flatMap (fun k => subsetsOfSize k l)

/-- Modelled from the spec: `space_size` from `nrobust/utils.py` — the size of
the specification space for a pool of `n` controls. -/
def spaceSize (n : ℕ) : ℕ := 2 ^ n

/-- The graded-lexicographic order the spec promises for the enumeration:
smaller subsets first, and within a size class the lexicographic order induced
by position in the input pool. -/
def gradedLex {α : Type} [DecidableEq α] (l : List α) (s t : List α) : Prop :=
  s.length < t.length ∨
    (s.length = t.length ∧ List.Lex (fun a b => l.indexOf a < l.indexOf b) s t)

/-! ### Summary statistics (`OLSResult._compute_summary`)

`_compute_summary` reduces each row of the bootstrap-estimates matrix
(`self.estimates`, one row per specification, one column per draw) to
`median`, `max`, `min` and the nearest-interpolation 2.5%/97.5% quantiles.
A row is embedded as a `List ℚ`; the pandas reductions are expressed through
the ascending order statistics of the row. -/

/-- A row of the estimates matrix sorted ascending — the order statistics all
pandas row reductions in `_compute_summary` are computed from. -/
def sortedQ (l : List ℚ) : List ℚ := List.insertionSort (· ≤ ·) l

/-- numpy index rounding used by quantile interpolation `nearest`: round
`num/den` to the nearest integer, ties to even (`np.round`). -/
def npRoundIdx (num den : ℕ) : ℕ :=
  if 2 * (num % den) < den then num / den
  else if den < 2 * (num % den) then num / den + 1
  else if (num / den) % 2 = 0 then num / den else num / den + 1

/-- `data.median(axis=1)`: the mean of the two middle order statistics (for an
odd count both indices coincide). -/
def rowMedian (l : List ℚ) : ℚ :=
  ((sortedQ l).getD ((l.length - 1) / 2) 0 + (sortedQ l).getD (l.length / 2) 0) / 2

/-- `data.min(axis=1)`: the smallest order statistic. -/
def rowMin (l : List ℚ) : ℚ := (sortedQ l).getD 0 0

/-- `data.max(axis=1)`: the largest order statistic. -/
def rowMax (l : List ℚ) : ℚ := (sortedQ l).getD (l.length - 1) 0

/-- `data.quantile(q=q40/40, axis=1, interpolation='nearest')`: the order
statistic at virtual index `q·(n−1)` rounded to the nearest rank. -/
def rowQuantileNearest (q40 : ℕ) (l : List ℚ) : ℚ :=
  (sortedQ l).getD (npRoundIdx (q40 * (l.length - 1)) 40) 0

/-- One row of the summary table produced by `_compute_summary`. -/
structure SummaryRow where
  median : ℚ
  max : ℚ
  min : ℚ
  ci_up : ℚ
  ci_down : ℚ

/-- `OLSResult._compute_summary`, restricted to one specification row `l` of
the estimates matrix: `median`, `max`, `min`, `ci_up` (97.5% nearest
quantile) and `ci_down` (2.5% nearest quantile). -/
def computeSummaryRow (l : List ℚ) : SummaryRow :=
  { median := rowMedian l
    max := rowMax l
    min := rowMin l
    ci_up := rowQuantileNearest 39 l
    ci_down := rowQuantileNearest 1 l }

/-! ### Bayesian Model Averaging (`OLSResult.compute_bma`)

`compute_bma` turns the per-specification BIC vector into model likelihoods
`L_i = exp((−BIC_i/2) − max_j(−BIC_j/2))`, and for each control returns the
mask-selected likelihood mass divided by the total mass.  The BIC vector is
embedded as `List ℝ` (every value finite), each frozenset specification name
as the list of control names it contains. -/

/-- `max_ll = np.max(-self.summary_df.bic/2)`. -/
noncomputable def bicMaxLL (bic : List ℝ) : ℝ :=
  ((bic.map (fun b => -b / 2)).maximum).unbot' 0

/-- `models_likelihood = np.exp((-bic/2) - max_ll)`. -/
noncomputable def modelsLikelihood (bic : List ℝ) : List ℝ :=
  (bic.map (fun b => -b / 2)).map (fun v => Real.exp (v - bicMaxLL bic))

/-- `sum_likelihoods = np.nansum(models_likelihood)` (with finite BIC values
every likelihood is finite, so `nansum` is the plain sum). -/
noncomputable def sumLikelihoods (bic : List ℝ) : ℝ := (modelsLikelihood bic).sum

/-- Boolean-mask selection `vals[idx]` with mask
`idx = [c in spec for spec in specs]`. -/
def maskSelect {α : Type} (vals : List α) (specs : List (List String))
    (c : String) : List α :=
  ((vals.zip specs).filter (fun p => c ∈ p.2)).map Prod.fst

/-- One entry of `likelihood_per_var`: `np.nansum(models_likelihood[idx])`. -/
noncomputable def likelihoodPerVar (bic : List ℝ) (specs : List (List String))
    (c : String) : ℝ :=
  (maskSelect (modelsLikelihood bic) specs c).sum

/-- The `probs` column of the `summary_bma` frame returned by `compute_bma`:
`likelihood_per_var / sum_likelihoods`, one entry per control. -/
noncomputable def computeBMAProbs (bic : List ℝ) (specs : List (List String))
    (controls : List String) : List ℝ :=
  controls.map (fun c => likelihoodPerVar bic specs c / sumLikelihoods bic)

/-- The posterior-inclusion-probability formula the spec states:
`Σ_{i : c ∈ spec_i} L_i / Z`. -/
noncomputable def bmaProbFormula (bic : List ℝ) (specs : List (List String))
    (c : String) : ℝ :=
  (∑ i ∈ Finset.range specs.length,
      if c ∈ specs.getD i [] then (modelsLikelihood bic).getD i 0 else 0) /
    sumLikelihoods bic

/-! ### Cluster/group bootstrap (`_strap_OLS`, group branch)

A data row is embedded as a pair (group key, payload).  The random draw
`idx = np.random.choice(temp_data[group].unique(), sample_size)` is modelled
by an arbitrary list of keys: a property proved for every possible list holds
for the random one. -/

/-- `select = temp_data[temp_data[group].isin(idx)]`: every row whose group
key was drawn. -/
def selectRows {K V : Type} [DecidableEq K] (rows : List (K × V))
    (idx : List K) : List (K × V) :=
  rows.filter (fun r => r.1 ∈ idx)

/-- `groupby(group).transform('size')`: the number of rows of `rows` sharing
the key `k`. -/
def groupSize {K V : Type} [DecidableEq K] (rows : List (K × V)) (k : K) : ℕ :=
  (rows.filter (fun r => r.1 = k)).length

/-- `no_singleton = select[select.groupby(group).transform('size') > 1]`. -/
def dropSingletons {K V : Type} [DecidableEq K] (rows : List (K × V)) :
    List (K × V) :=
  rows.filter (fun r => 1 < groupSize rows r.1)

/-- The sample the group branch of `_strap_OLS` passes to `stripped_ols`
(dropping the group column afterwards does not change row counts): keep the
rows of the drawn keys, then discard groups left with a single row. -/
def strapGroupSample {K V : Type} [DecidableEq K] (rows : List (K × V))
    (idx : List K) : List (K × V) :=
  dropSingletons (selectRows rows idx)

/-! ### Shuffle mode (`_strap_OLS`, shuffle branch)

`_strap_OLS` receives `comb_var` after the listwise deletion in `fit`, so the
pandas row-index labels of `comb_var` need not be the contiguous range
`0..n-1`.  The shuffle branch draws `idx_y = np.random.permutation(y.index)` —
a permutation of the *labels* — and evaluates `y.iloc[idx_y]`, a *positional*
lookup. -/

/-- `series.iloc[positions]` on a series embedded as the list of its values in
positional order: `none` models the pandas `IndexError` raised when any
requested position is out of bounds, otherwise the values at the requested
positions are returned. -/
def ilocSelect {α : Type} (vals : List α) : List ℕ → Option (List α)
  | [] => some []
  | p :: ps =>
      match vals[p]?, ilocSelect vals ps with
      | some v, some rest => some (v :: rest)
      | _, _ => none

/-- The shuffle step of `_strap_OLS` applied to the dependent column:
`yCol` pairs each row's pandas index label with its y value, `permLabels` is
the drawn permutation of the labels, and the lookup is positional. -/
def strapShuffleY (yCol : List (ℕ × ℚ)) (permLabels : List ℕ) :
    Option (List ℚ) :=
  ilocSelect (yCol.map Prod.snd) permLabels

/-! ### Composite outcomes (`OLSRobust.multiple_y`)

The source table is embedded as a map from indicator name to column (a list
of reals, one entry per row); `n` is the row count. -/

/-- `subset.mean()` for one column. -/
noncomputable def colMean (c : List ℝ) : ℝ := c.sum / c.length

/-- pandas `subset.std()` for one column (ddof = 1). -/
noncomputable def colStd (c : List ℝ) : ℝ :=
  Real.sqrt (((c.map (fun v => (v - colMean c) ^ 2)).sum) / (c.length - 1))

/-- One column of `(subset - subset.mean()) / subset.std()`. -/
noncomputable def zscore (c : List ℝ) : List ℝ :=
  c.map (fun v => (v - colMean c) / colStd c)

/-- `.mean(axis=1)`: entry `j` of the row-wise average of the columns
`cols`, for each of the `n` rows. -/
noncomputable def rowwiseMean (cols : List (List ℝ)) (n : ℕ) : List ℝ :=
  (List.range n).map
    (fun j => ((cols.map (fun c => c.getD j 0)).sum) / cols.length)

/-- `OLSRobust.multiple_y`: iterate `all_subsets` over the outcome-indicator
pool and, for every subset with more than one element, append the pair
(subset, composite outcome = row-wise mean of the z-scored indicator
columns). -/
noncomputable def multipleY (table : String → List ℝ) (ys : List String)
    (n : ℕ) : List (List String × List ℝ) :=
  (allSubsets ys).foldl
    (fun acc spec =>
      if 1 < spec.length then
        acc ++ [(spec, rowwiseMean ((spec.map table).map zscore) n)]
      else acc) []

/-! ### Bootstrap draw collection in `fit` -/

/-- The per-specification draw collection in `fit`:
`b_list, p_list = zip(*Parallel(...)(delayed(self._strap_OLS)(...) for i in
range(0, draws)))`.  The outcome of draw `i` is modelled by `strap i`, an
arbitrary coefficient/p-value pair covering every possible random draw. -/
def bootstrapDraws (draws : ℕ) (strap : ℕ → ℚ × ℚ) : List ℚ × List ℚ :=
  ((List.range draws).map strap).unzip

/-- The bootstrap storage of `fit`: row `index` of `b_array`/`p_array`
receives the coefficient and p-value vectors of specification `index`. -/
def fitBootstrapRows (specs : List (List String)) (draws : ℕ)
    (strap : List String → ℕ → ℚ × ℚ) : List (List ℚ × List ℚ) :=
  specs.map (fun s => bootstrapDraws draws (strap s))

/-! ### Missing-value warning (`OLSRobust.__init__`) -/

/-- `data.isnull().values.any()`: whether any cell of the source table is
missing.  The table is a list of rows of optional cells. -/
def hasMissing (rows : List (List (Option ℚ))) : Bool :=
  rows.any (fun r => r.any (fun c => c.isNone))

/-- The warning category `__init__` can emit (`MissingValueWarning` from
`nrobust.prototypes`). -/
inductive WarningKind where
  | missingValueWarning
deriving DecidableEq

/-- `OLSRobust.__init__`: always constructs the model state (storing `y`, `x`
and `data` unchanged) and emits `MissingValueWarning` exactly when the table
has a missing cell; no code path raises an error. -/
def olsRobustInit (y x : List String) (rows : List (List (Option ℚ))) :
    List WarningKind × (List String × List String × List (List (Option ℚ))) :=
  (if hasMissing rows then [WarningKind.missingValueWarning] else [],
    (y, x, rows))

/-! ### `all_b`/`all_p` collection in single- vs multi-outcome `fit` -/

/-- Multi-outcome `fit`: `b_all`/`p_all` are loop variables overwritten on
every (composite outcome, specification) iteration, and `OLSResult` receives
whatever the last iteration left (`none` when no iteration ran).
`full y s` models the `_full_sample_OLS` output for composite `y` and
specification `s`. -/
def fitMultiAllB {Y S B : Type} (ys : List Y) (specs : List S)
    (full : Y → S → B) : Option B :=
  ys.foldl (fun acc y => specs.foldl (fun _ s => some (full y s)) acc) none

/-- Single-outcome `fit`: `b_all_list.append(b_all)` runs once per
specification, so `OLSResult.all_b` collects one entry per specification. -/
def fitSingleAllB {S B : Type} (specs : List S) (full : S → B) : List B :=
  specs.map full

/-! ### Default sample size vs listwise deletion (`fit` prologue and the
no-group branch of `_strap_OLS`) -/

/-- `fit`: `if sample_size is None: sample_size = self.data.shape[0]`.  Column
selection never changes the row count, so the full-table row count is the
upper bound every no-group draw requests. -/
def defaultSampleSize (dataRowCount : ℕ) : ℕ := dataRowCount

/-- `comb.dropna()`: keep exactly the rows with no missing cell among the
selected columns. -/
def dropna (rows : List (List (Option ℚ))) : List (List ℚ) :=
  rows.filterMap (fun r => r.mapM id)

/-- `pandas.DataFrame.sample(n=sample_size, replace=replace)`: without
replacement, a request for more rows than the frame holds raises
`ValueError` (modelled as `none`); otherwise a sample of `n` rows is returned
(`pick` models the random row choice). -/
def pandasSample {α : Type} [Inhabited α] (rows : List α) (n : ℕ)
    (replace : Bool) (pick : ℕ → ℕ) : Option (List α) :=
  if replace = false ∧ rows.length < n then none
  else some ((List.range n).map (fun i => rows.getD (pick i) default))

/-- The no-group branch of `_strap_OLS`: draw the sample, then run the
stripped OLS fit (`ols` abstracts `stripped_ols` together with the extraction
of the treatment coefficient and p-value). -/
def strapOLSNoGroup (comb : List (List ℚ)) (sampleSize : ℕ) (replace : Bool)
    (pick : ℕ → ℕ) (ols : List (List ℚ) → ℚ × ℚ) : Option (ℚ × ℚ) :=
  (pandasSample comb sampleSize replace pick).map ols

theorem length_subsetsOfSize {α : Type} :
    ∀ (k : ℕ) (l : List α), (subsetsOfSize k l).length = l.length.choose k
  | 0, _ => by simp [subsetsOfSize]
  | k + 1, [] => by simp [subsetsOfSize]
  | k + 1, x :: xs => by
      simp [subsetsOfSize, length_subsetsOfSize k xs,
        length_subsetsOfSize (k + 1) xs, Nat.choose_succ_succ, Nat.add_comm]

theorem mem_subsetsOfSize {α : Type} :
    ∀ (k : ℕ) (l s : List α), s ∈ subsetsOfSize k l ↔ s.Sublist l ∧ s.length = k
  | 0, l, s => by
      constructor
      · intro hs
        simp [subsetsOfSize] at hs
        simp [hs]
      · rintro ⟨hsub, hlen⟩
        rw [List.length_eq_zero] at hlen
        simp [subsetsOfSize, hlen]
  | k + 1, [], s => by
      constructor
      · intro hs; simp [subsetsOfSize] at hs
      · rintro ⟨hsub, hlen⟩
        have := List.sublist_nil.mp hsub
        subst this; simp at hlen
  | k + 1, x :: xs, s => by
      constructor
      · intro hs
        simp only [subsetsOfSize, List.mem_append, List.mem_map] at hs
        rcases hs with ⟨t, ht, rfl⟩ | hs
        · rcases (mem_subsetsOfSize k xs t).mp ht with ⟨hsub, hlen⟩
          exact ⟨List.Sublist.cons₂ x hsub, by simp [hlen]⟩
        · rcases (mem_subsetsOfSize (k + 1) xs s).mp hs with ⟨hsub, hlen⟩
          exact ⟨hsub.trans (List.sublist_cons_self x xs), hlen⟩
      · rintro ⟨hsub, hlen⟩
        simp only [subsetsOfSize, List.mem_append, List.mem_map]
        rcases List.sublist_cons_iff.mp hsub with h | ⟨t, rfl, h⟩
        · right; exact (mem_subsetsOfSize (k + 1) xs s).mpr ⟨h, hlen⟩
        · left
          exact ⟨t, (mem_subsetsOfSize k xs t).mpr ⟨h, by simpa using hlen⟩, rfl⟩

theorem pairwise_lex_subsetsOfSize {α : Type} (r : α → α → Prop) :
    ∀ (k : ℕ) (l : List α), l.Pairwise r →
      (subsetsOfSize k l).Pairwise (List.Lex r)
  | 0, l, _ => by simp [subsetsOfSize]
  | k + 1, [], _ => by simp [subsetsOfSize]
  | k + 1, x :: xs, hp => by
      have hx : ∀ y ∈ xs, r x y := (List.pairwise_cons.mp hp).1
      have hxs : xs.Pairwise r := (List.pairwise_cons.mp hp).2
      simp only [subsetsOfSize]
      refine List.pairwise_append.mpr ⟨?_, ?_, ?_⟩
      · exact List.pairwise_map.mpr
          ((pairwise_lex_subsetsOfSize r k xs hxs).imp (fun h => List.Lex.cons h))
      · exact pairwise_lex_subsetsOfSize r (k + 1) xs hxs
      · intro s hs t ht
        simp only [List.mem_map] at hs
        rcases hs with ⟨u, _, rfl⟩
        rcases (mem_subsetsOfSize (k + 1) xs t).mp ht with ⟨hsub, hlen⟩
        cases t with
        | nil => simp at hlen
        | cons b bs =>
            have hb : b ∈ xs := hsub.subset (by simp)
            exact List.Lex.rel (hx b hb)

theorem sum_map_range (f : ℕ → ℕ) :
    ∀ m : ℕ, ((List.range m).map f).sum = ∑ i ∈ Finset.range m, f i
  | 0 => by simp
  | m + 1 => by
      rw [List.range_succ, Finset.sum_range_succ, List.map_append, List.sum_append,
        sum_map_range f m]
      simp

theorem length_allSubsets {α : Type} (l : List α) :
    (allSubsets l).length = 2 ^ l.length := by
  rw [allSubsets, List.length_flatMap]
  simp only [Function.comp_def, length_subsetsOfSize]
  rw [sum_map_range, Nat.sum_range_choose]

theorem subsetsOfSize_eq_nil {α : Type} :
    ∀ (l : List α) (k : ℕ), l.length < k → subsetsOfSize k l = []
  | [], _ + 1, _ => rfl
  | x :: xs, k + 1, h => by
      simp only [subsetsOfSize]
      rw [subsetsOfSize_eq_nil xs k (by simpa using h),
        subsetsOfSize_eq_nil xs (k + 1) (by simp at h; omega)]
      simp

theorem subsetsOfSize_self {α : Type} :
    ∀ l : List α, subsetsOfSize l.length l = [l]
  | [] => rfl
  | x :: xs => by
      simp only [List.length_cons, subsetsOfSize]
      rw [subsetsOfSize_self xs, subsetsOfSize_eq_nil xs (xs.length + 1) (by omega)]
      simp

theorem head?_allSubsets {α : Type} (l : List α) :
    (allSubsets l).head? = some [] := by
  rw [allSubsets, List.range_succ_eq_map]
  simp [subsetsOfSize]

theorem getLast?_allSubsets {α : Type} (l : List α) :
    (allSubsets l).getLast? = some l := by
  rw [allSubsets, List.range_succ, List.flatMap_append]
  simp [subsetsOfSize_self, List.getLast?_concat]

theorem mem_allSubsets {α : Type} (l s : List α) :
    s ∈ allSubsets l ↔ s.Sublist l := by
  rw [allSubsets, List.mem_flatMap]
  constructor
  · rintro ⟨k, _, hk⟩
    exact ((mem_subsetsOfSize k l s).mp hk).1
  · intro hs
    exact ⟨s.length, by
      simp only [List.mem_range]
      exact Nat.lt_succ_of_le hs.length_le,
      (mem_subsetsOfSize s.length l s).mpr ⟨hs, rfl⟩⟩

theorem pairwise_indexOf {α : Type} [DecidableEq α] (l : List α) (hnd : l.Nodup) :
    l.Pairwise (fun a b => l.indexOf a < l.indexOf b) := by
  rw [List.pairwise_iff_getElem]
  intro i j hi hj hij
  rw [List.indexOf_getElem hnd i hi, List.indexOf_getElem hnd j hj]
  exact hij

theorem lex_irrefl {α : Type} (r : α → α → Prop) (hr : ∀ a, ¬ r a a) :
    ∀ s : List α, ¬ List.Lex r s s
  | [], h => nomatch h
  | a :: t, h => by
      cases h with
      | cons h => exact lex_irrefl r hr t h
      | rel h => exact hr a h

theorem allSubsets_pairwise_gradedLex {α : Type} [DecidableEq α] (l : List α)
    (hnd : l.Nodup) : (allSubsets l).Pairwise (gradedLex l) := by
  rw [allSubsets, List.pairwise_flatMap]
  constructor
  · intro k _
    have hblock := pairwise_lex_subsetsOfSize (fun a b => l.indexOf a < l.indexOf b)
      k l (pairwise_indexOf l hnd)
    refine hblock.imp_of_mem ?_
    intro s t hs ht hlex
    exact Or.inr ⟨by
      rw [((mem_subsetsOfSize k l s).mp hs).2, ((mem_subsetsOfSize k l t).mp ht).2],
      hlex⟩
  · refine (List.pairwise_lt_range _).imp ?_
    intro k₁ k₂ hk s hs t ht
    exact Or.inl (by
      rw [((mem_subsetsOfSize k₁ l s).mp hs).2, ((mem_subsetsOfSize k₂ l t).mp ht).2]
      exact hk)

theorem nodup_allSubsets {α : Type} [DecidableEq α] (l : List α) (hnd : l.Nodup) :
    (allSubsets l).Nodup := by
  refine (allSubsets_pairwise_gradedLex l hnd).imp ?_
  intro s t h he
  subst he
  rcases h with h | ⟨_, hlex⟩
  · omega
  · exact lex_irrefl (fun a b => l.indexOf a < l.indexOf b) (fun a => lt_irrefl _) s hlex

/-- C1: `space_size(N) = 2^N`, and the enumeration `all_subsets` over an
ordered pool of `N` distinct control names yields exactly `2^N` distinct
subsets with no duplicates — every subset of the pool exactly once — with the
empty set first, the full set last, and the sequence ordered by increasing
subset size and lexicographically by input order within each size. -/
theorem all_subsets_enumeration {α : Type} [DecidableEq α] (l : List α)
    (hnd : l.Nodup) :
    spaceSize l.length = 2 ^ l.length ∧
    (allSubsets l).length = spaceSize l.length ∧
    (allSubsets l).Nodup ∧
    (∀ s : List α, s ∈ allSubsets l ↔ s.Sublist l) ∧
    (allSubsets l).head? = some [] ∧
    (allSubsets l).getLast? = some l ∧
    (allSubsets l).Pairwise (gradedLex l) :=
  ⟨rfl, (length_allSubsets l).trans rfl, nodup_allSubsets l hnd,
    fun s => mem_allSubsets l s, head?_allSubsets l, getLast?_allSubsets l,
    allSubsets_pairwise_gradedLex l hnd⟩

/-- Witness for C1 at the concrete two-name pool `[0, 1]`. -/
theorem all_subsets_enumeration_witness :
    ([0, 1] : List ℕ).Nodup ∧
    (spaceSize ([0, 1] : List ℕ).length = 2 ^ ([0, 1] : List ℕ).length ∧
      (allSubsets ([0, 1] : List ℕ)).length = spaceSize ([0, 1] : List ℕ).length ∧
      (allSubsets ([0, 1] : List ℕ)).Nodup ∧
      (∀ s : List ℕ, s ∈ allSubsets [0, 1] ↔ s.Sublist [0, 1]) ∧
      (allSubsets ([0, 1] : List ℕ)).head? = some [] ∧
      (allSubsets ([0, 1] : List ℕ)).getLast? = some [0, 1] ∧
      (allSubsets ([0, 1] : List ℕ)).Pairwise (gradedLex [0, 1])) :=
  ⟨by decide, all_subsets_enumeration [0, 1] (by decide)⟩

theorem length_sortedQ (l : List ℚ) : (sortedQ l).length = l.length :=
  (List.perm_insertionSort _ l).length_eq

theorem sortedQ_getD_mono (l : List ℚ) {i j : ℕ} (hij : i ≤ j)
    (hj : j < l.length) : (sortedQ l).getD i 0 ≤ (sortedQ l).getD j 0 := by
  have hs : (sortedQ l).Sorted (· ≤ ·) := List.sorted_insertionSort _ l
  have hj' : j < (sortedQ l).length := by rw [length_sortedQ]; exact hj
  have hi' : i < (sortedQ l).length := lt_of_le_of_lt hij hj'
  rw [List.getD_eq_getElem _ _ hi', List.getD_eq_getElem _ _ hj']
  have h := hs.rel_get_of_le (a := ⟨i, hi'⟩) (b := ⟨j, hj'⟩) hij
  simpa using h

theorem ciDown_idx_le (n : ℕ) : npRoundIdx (1 * (n - 1)) 40 ≤ (n - 1) / 2 := by
  unfold npRoundIdx; split_ifs <;> omega

theorem ciUp_idx_ge (n : ℕ) (h : 1 ≤ n) :
    n / 2 ≤ npRoundIdx (39 * (n - 1)) 40 := by
  unfold npRoundIdx; split_ifs <;> omega

theorem ciUp_idx_le (n : ℕ) : npRoundIdx (39 * (n - 1)) 40 ≤ n - 1 := by
  unfold npRoundIdx; split_ifs <;> omega

/-- C2: for every specification row of the summary table computed by
`_compute_summary` from a non-empty bootstrap coefficient vector,
`min ≤ ci_down ≤ median ≤ ci_up ≤ max`. -/
theorem compute_summary_ordered (l : List ℚ) (h : l ≠ []) :
    (computeSummaryRow l).min ≤ (computeSummaryRow l).ci_down ∧
    (computeSummaryRow l).ci_down ≤ (computeSummaryRow l).median ∧
    (computeSummaryRow l).median ≤ (computeSummaryRow l).ci_up ∧
    (computeSummaryRow l).ci_up ≤ (computeSummaryRow l).max := by
  have hn : 1 ≤ l.length := List.length_pos.mpr h
  have hlo : (l.length - 1) / 2 < l.length := by omega
  have hhi : l.length / 2 < l.length := by omega
  have hmax : l.length - 1 < l.length := by omega
  have hd : npRoundIdx (1 * (l.length - 1)) 40 ≤ (l.length - 1) / 2 :=
    ciDown_idx_le l.length
  have hu1 : l.length / 2 ≤ npRoundIdx (39 * (l.length - 1)) 40 :=
    ciUp_idx_ge l.length hn
  have hu2 : npRoundIdx (39 * (l.length - 1)) 40 ≤ l.length - 1 :=
    ciUp_idx_le l.length
  have hmid : (sortedQ l).getD ((l.length - 1) / 2) 0 ≤
      (sortedQ l).getD (l.length / 2) 0 :=
    sortedQ_getD_mono l (by omega) hhi
  have hcd : (sortedQ l).getD (npRoundIdx (1 * (l.length - 1)) 40) 0 ≤
      (sortedQ l).getD ((l.length - 1) / 2) 0 :=
    sortedQ_getD_mono l hd hlo
  have hcu : (sortedQ l).getD (l.length / 2) 0 ≤
      (sortedQ l).getD (npRoundIdx (39 * (l.length - 1)) 40) 0 :=
    sortedQ_getD_mono l hu1 (by omega)
  refine ⟨?_, ?_, ?_, ?_⟩
  · exact sortedQ_getD_mono l (Nat.zero_le _) (by omega)
  · simp only [computeSummaryRow, rowQuantileNearest, rowMedian]
    linarith
  · simp only [computeSummaryRow, rowQuantileNearest, rowMedian]
    linarith
  · exact sortedQ_getD_mono l hu2 hmax

/-- Witness for C2 at the concrete bootstrap vector `[3, 1, 2]`. -/
theorem compute_summary_ordered_witness :
    ([3, 1, 2] : List ℚ) ≠ [] ∧
    ((computeSummaryRow [3, 1, 2]).min ≤ (computeSummaryRow [3, 1, 2]).ci_down ∧
      (computeSummaryRow [3, 1, 2]).ci_down ≤ (computeSummaryRow [3, 1, 2]).median ∧
      (computeSummaryRow [3, 1, 2]).median ≤ (computeSummaryRow [3, 1, 2]).ci_up ∧
      (computeSummaryRow [3, 1, 2]).ci_up ≤ (computeSummaryRow [3, 1, 2]).max) :=
  ⟨by decide, compute_summary_ordered [3, 1, 2] (by decide)⟩

theorem length_modelsLikelihood (bic : List ℝ) :
    (modelsLikelihood bic).length = bic.length := by
  simp [modelsLikelihood]

theorem modelsLikelihood_pos (bic : List ℝ) :
    ∀ x ∈ modelsLikelihood bic, 0 < x := by
  intro x hx
  simp only [modelsLikelihood, List.mem_map] at hx
  rcases hx with ⟨v, _, rfl⟩
  exact Real.exp_pos _

theorem maskSelect_cons {α : Type} (v : α) (vs : List α) (s : List String)
    (ss : List (List String)) (c : String) :
    maskSelect (v :: vs) (s :: ss) c =
      if c ∈ s then v :: maskSelect vs ss c else maskSelect vs ss c := by
  by_cases h : c ∈ s <;> simp [maskSelect, List.filter_cons, h]

theorem maskSelect_subset {α : Type} (vals : List α) (specs : List (List String))
    (c : String) : ∀ x ∈ maskSelect vals specs c, x ∈ vals := by
  intro x hx
  simp only [maskSelect, List.mem_map, List.mem_filter] at hx
  rcases hx with ⟨⟨a, b⟩, ⟨hz, _⟩, rfl⟩
  exact (List.of_mem_zip hz).1

theorem list_sum_eq_range_sum :
    ∀ l : List ℝ, l.sum = ∑ i ∈ Finset.range l.length, l.getD i 0
  | [] => by simp
  | x :: xs => by
      rw [List.sum_cons, list_sum_eq_range_sum xs, List.length_cons,
        Finset.sum_range_succ']
      simp [add_comm]

theorem maskSelect_sum :
    ∀ (vals : List ℝ) (specs : List (List String)) (c : String),
      vals.length = specs.length →
      (maskSelect vals specs c).sum =
        ∑ i ∈ Finset.range specs.length,
          if c ∈ specs.getD i [] then vals.getD i 0 else 0
  | [], [], c, _ => by simp [maskSelect]
  | v :: vs, s :: ss, c, hlen => by
      rw [maskSelect_cons, List.length_cons, Finset.sum_range_succ']
      have ih := maskSelect_sum vs ss c (by simpa using hlen)
      by_cases h : c ∈ s
      · simp [h, ih, add_comm]
      · simp [h, ih]

theorem modelsLikelihood_ne_nil (bic : List ℝ) (hne : bic ≠ []) :
    modelsLikelihood bic ≠ [] := by
  simp only [modelsLikelihood, ne_eq, List.map_eq_nil_iff]
  exact hne

theorem sumLikelihoods_pos (bic : List ℝ) (hne : bic ≠ []) :
    0 < sumLikelihoods bic :=
  List.sum_pos _ (modelsLikelihood_pos bic) (modelsLikelihood_ne_nil bic hne)

theorem modelsLikelihood_getD_nonneg (bic : List ℝ) (i : ℕ) :
    0 ≤ (modelsLikelihood bic).getD i 0 := by
  by_cases h : i < (modelsLikelihood bic).length
  · rw [List.getD_eq_getElem _ _ h]
    exact le_of_lt (modelsLikelihood_pos bic _ (List.getElem_mem h))
  · rw [List.getD_eq_default _ _ (le_of_not_lt h)]

/-- C3: with every BIC value finite, `compute_bma` returns for each control
`c` the posterior inclusion probability `Σ_{i : c ∈ spec_i} L_i / Z` with
`L_i = exp((−BIC_i/2) − max_j(−BIC_j/2))` and `Z = Σ L_i`, and every returned
inclusion probability lies in `[0, 1]`. -/
theorem compute_bma_inclusion_probs (bic : List ℝ) (specs : List (List String))
    (controls : List String) (hne : bic ≠ [])
    (hlen : bic.length = specs.length) :
    computeBMAProbs bic specs controls =
      controls.map (bmaProbFormula bic specs) ∧
    ∀ p ∈ computeBMAProbs bic specs controls, 0 ≤ p ∧ p ≤ 1 := by
  have hZ : 0 < sumLikelihoods bic := sumLikelihoods_pos bic hne
  have hlen2 : (modelsLikelihood bic).length = specs.length := by
    rw [length_modelsLikelihood]; exact hlen
  constructor
  · unfold computeBMAProbs bmaProbFormula likelihoodPerVar
    refine List.map_congr_left ?_
    intro c _
    rw [maskSelect_sum (modelsLikelihood bic) specs c hlen2]
  · intro p hp
    simp only [computeBMAProbs, List.mem_map] at hp
    rcases hp with ⟨c, _, rfl⟩
    constructor
    · refine div_nonneg ?_ (le_of_lt hZ)
      exact List.sum_nonneg (fun x hx =>
        le_of_lt (modelsLikelihood_pos bic x (maskSelect_subset _ _ _ x hx)))
    · rw [div_le_one hZ, likelihoodPerVar,
        maskSelect_sum (modelsLikelihood bic) specs c hlen2]
      have hZsum : sumLikelihoods bic =
          ∑ i ∈ Finset.range specs.length, (modelsLikelihood bic).getD i 0 := by
        rw [sumLikelihoods, list_sum_eq_range_sum, hlen2]
      rw [hZsum]
      refine Finset.sum_le_sum ?_
      intro i _
      split_ifs
      · exact le_refl _
      · exact modelsLikelihood_getD_nonneg bic i

/-- Witness for C3 at a concrete two-specification result. -/
theorem compute_bma_inclusion_probs_witness :
    ((([1, 2] : List ℝ) ≠ []) ∧
      ([1, 2] : List ℝ).length = ([[], ["c1"]] : List (List String)).length) ∧
    (computeBMAProbs [1, 2] ([[], ["c1"]] : List (List String)) ["c1"] =
        (["c1"] : List String).map
          (bmaProbFormula [1, 2] ([[], ["c1"]] : List (List String))) ∧
      ∀ p ∈ computeBMAProbs [1, 2] ([[], ["c1"]] : List (List String)) ["c1"],
        0 ≤ p ∧ p ≤ 1) :=
  ⟨⟨by simp, rfl⟩,
    compute_bma_inclusion_probs [1, 2] [[], ["c1"]] ["c1"] (by simp) rfl⟩

theorem filter_key_dropSingletons {K V : Type} [DecidableEq K]
    (rows : List (K × V)) (k : K) :
    (dropSingletons rows).filter (fun r => r.1 = k) =
      if 1 < groupSize rows k then rows.filter (fun r => r.1 = k) else [] := by
  unfold dropSingletons
  rw [List.filter_filter]
  by_cases h : 1 < groupSize rows k
  · rw [if_pos h]
    apply List.filter_congr
    intro r _
    by_cases hk : r.1 = k
    · simp [hk, h]
    · simp [hk]
  · rw [if_neg h, List.filter_eq_nil_iff]
    intro r _
    simp only [Bool.and_eq_true, decide_eq_true_eq, not_and]
    intro hk hgt
    rw [hk] at hgt
    exact h hgt

theorem groupSize_dropSingletons {K V : Type} [DecidableEq K]
    (rows : List (K × V)) (k : K) :
    groupSize (dropSingletons rows) k =
      if 1 < groupSize rows k then groupSize rows k else 0 := by
  have hrfl : groupSize (dropSingletons rows) k
      = ((dropSingletons rows).filter (fun r => r.1 = k)).length := rfl
  rw [hrfl, filter_key_dropSingletons rows k]
  split_ifs
  · rfl
  · rfl

/-- C4: the group branch of `_strap_OLS` keeps exactly the rows whose group
key belongs to the drawn key list, and after the singleton filter the sample
passed to the stripped OLS fit contains no group with exactly one remaining
row.  The draw of `sample_size` keys with replacement over the distinct keys
is modelled by the arbitrary drawn list `idx`: the property holds for every
possible draw. -/
theorem strap_ols_group_no_singletons {K V : Type} [DecidableEq K]
    (rows : List (K × V)) (idx : List K) :
    (∀ r : K × V, r ∈ selectRows rows idx ↔ r ∈ rows ∧ r.1 ∈ idx) ∧
    ∀ k : K, groupSize (strapGroupSample rows idx) k ≠ 1 := by
  constructor
  · intro r
    simp [selectRows]
  · intro k
    rw [strapGroupSample, groupSize_dropSingletons]
    split_ifs with h <;> omega

theorem ilocSelect_out_of_bounds {α : Type} :
    ∀ (vals : List α) (positions : List ℕ),
      (∃ i ∈ positions, vals.length ≤ i) → ilocSelect vals positions = none
  | _, [], h => by simp at h
  | vals, p :: ps, h => by
      rcases h with ⟨i, hi, hlen⟩
      rcases List.mem_cons.mp hi with rfl | hi
      · have hv : vals[i]? = none := List.getElem?_eq_none hlen
        simp [ilocSelect, hv]
      · have ih := ilocSelect_out_of_bounds vals ps ⟨i, hi, hlen⟩
        cases hv : vals[p]? <;> simp [ilocSelect, hv, ih]

/-- C5: the shuffle branch evaluated at a failing input.  After listwise
deletion drops the middle row of a three-row sample, the dependent column
keeps the pandas index labels `[0, 2]`; `np.random.permutation(y.index)`
yields some permutation of those labels, and for every such permutation the
positional lookup `y.iloc[idx_y]` requests position 2 in a two-row column, so
the draw fails with a pandas `IndexError` instead of pairing the unchanged
predictor rows with a permutation of the outcome values. -/
theorem strap_shuffle_fails_on_gapped_index (p : List ℕ) (hp : p.Perm [0, 2]) :
    strapShuffleY [(0, 5), (2, 7)] p = none := by
  apply ilocSelect_out_of_bounds
  exact ⟨2, hp.mem_iff.mpr (by simp), by simp⟩

/-- Witness for C5's evaluation theorem at one concrete permutation of the
labels. -/
theorem strap_shuffle_fails_on_gapped_index_witness :
    ([2, 0] : List ℕ).Perm [0, 2] ∧
      strapShuffleY [(0, 5), (2, 7)] [2, 0] = none :=
  ⟨List.Perm.swap 0 2 [],
    strap_shuffle_fails_on_gapped_index [2, 0] (List.Perm.swap 0 2 [])⟩

theorem foldl_filter_append {α β : Type} (p : α → Prop) [DecidablePred p]
    (g : α → β) :
    ∀ (l : List α) (acc : List β),
      l.foldl (fun a x => if p x then a ++ [g x] else a) acc =
        acc ++ (l.filter (fun x => p x)).map g
  | [], acc => by simp
  | x :: xs, acc => by
      simp only [List.foldl_cons, List.filter_cons]
      by_cases h : p x
      · rw [if_pos h, foldl_filter_append p g xs (acc ++ [g x])]
        simp [h]
      · rw [if_neg h, foldl_filter_append p g xs acc]
        simp [h]

theorem zscore_getD (c : List ℝ) (j : ℕ) (hj : j < c.length) :
    (zscore c).getD j 0 = (c.getD j 0 - colMean c) / colStd c := by
  rw [zscore, List.getD_eq_getElem _ _ (by simpa using hj), List.getElem_map,
    List.getD_eq_getElem _ _ hj]

theorem rowwiseMean_getD (table : String → List ℝ) (s : List String) (n j : ℕ)
    (hj : j < n) (hlen : ∀ c : String, (table c).length = n) :
    (rowwiseMean ((s.map table).map zscore) n).getD j 0 =
      (s.map (fun c =>
          ((table c).getD j 0 - colMean (table c)) / colStd (table c))).sum /
        s.length := by
  rw [rowwiseMean, List.getD_eq_getElem _ _ (by simpa using hj),
    List.getElem_map, List.getElem_range, List.map_map, List.map_map]
  have hnum : (s.map (((fun c => c.getD j 0) ∘ zscore) ∘ table)).sum =
      (s.map (fun c =>
        ((table c).getD j 0 - colMean (table c)) / colStd (table c))).sum := by
    congr 1
    refine List.map_congr_left ?_
    intro c _
    simp only [Function.comp_apply]
    exact zscore_getD (table c) j (by rw [hlen c]; exact hj)
  rw [hnum]
  simp

/-- C6: with more than one outcome indicator, `multiple_y` builds one
composite outcome for exactly the subsets of size ≥ 2 of the
outcome-indicator pool (in enumeration order) and no others, and entry `j` of
each composite equals the row-wise average over the subset of the z-scored
indicator columns (value minus column mean, divided by the ddof-1 standard
deviation). -/
theorem multiple_y_composites (table : String → List ℝ) (ys : List String)
    (n : ℕ) (hlen : ∀ c : String, (table c).length = n) :
    multipleY table ys n =
      ((allSubsets ys).filter (fun s => 1 < s.length)).map
        (fun s => (s, rowwiseMean ((s.map table).map zscore) n)) ∧
    ∀ (s : List String) (j : ℕ), j < n →
      (rowwiseMean ((s.map table).map zscore) n).getD j 0 =
        (s.map (fun c =>
            ((table c).getD j 0 - colMean (table c)) / colStd (table c))).sum /
          s.length := by
  constructor
  · rw [multipleY, foldl_filter_append (fun s : List String => 1 < s.length)
      (fun s => (s, rowwiseMean ((s.map table).map zscore) n)) (allSubsets ys) []]
    simp
  · intro s j hj
    exact rowwiseMean_getD table s n j hj hlen

/-- Witness for C6 at a concrete two-indicator pool with two rows. -/
theorem multiple_y_composites_witness :
    (∀ c : String, ((fun _ : String => ([1, 2] : List ℝ)) c).length = 2) ∧
    (multipleY (fun _ : String => ([1, 2] : List ℝ)) ["a", "b"] 2 =
        ((allSubsets ["a", "b"]).filter (fun s => 1 < s.length)).map
          (fun s => (s, rowwiseMean
            ((s.map (fun _ : String => ([1, 2] : List ℝ))).map zscore) 2)) ∧
      ∀ (s : List String) (j : ℕ), j < 2 →
        (rowwiseMean ((s.map (fun _ : String => ([1, 2] : List ℝ))).map zscore)
            2).getD j 0 =
          (s.map (fun c =>
              (((fun _ : String => ([1, 2] : List ℝ)) c).getD j 0 -
                  colMean ((fun _ : String => ([1, 2] : List ℝ)) c)) /
                colStd ((fun _ : String => ([1, 2] : List ℝ)) c))).sum /
            s.length) :=
  ⟨fun _ => rfl,
    multiple_y_composites (fun _ : String => ([1, 2] : List ℝ)) ["a", "b"] 2
      (fun _ => rfl)⟩

/-- C7: for every specification processed by `fit` with draw count `draws`,
the stored bootstrap coefficient vector and the parallel p-value vector each
have length exactly `draws` — one entry per draw in `range(0, draws)`. -/
theorem bootstrap_vectors_length (specs : List (List String)) (draws : ℕ)
    (strap : List String → ℕ → ℚ × ℚ) :
    ∀ row ∈ fitBootstrapRows specs draws strap,
      row.1.length = draws ∧ row.2.length = draws := by
  intro row hrow
  simp only [fitBootstrapRows, List.mem_map] at hrow
  rcases hrow with ⟨s, _, rfl⟩
  constructor <;> simp [bootstrapDraws]

/-- Witness for C7 at a one-specification space with two draws. -/
theorem bootstrap_vectors_length_witness :
    (bootstrapDraws 2 ((fun _ _ => ((0 : ℚ), (0 : ℚ))) ["c"]) ∈
        fitBootstrapRows [["c"]] 2 (fun _ _ => ((0 : ℚ), (0 : ℚ)))) ∧
    ((bootstrapDraws 2 ((fun _ _ => ((0 : ℚ), (0 : ℚ))) ["c"])).1.length = 2 ∧
      (bootstrapDraws 2 ((fun _ _ => ((0 : ℚ), (0 : ℚ))) ["c"])).2.length = 2) :=
  ⟨by simp [fitBootstrapRows],
    bootstrap_vectors_length [["c"]] 2 (fun _ _ => ((0 : ℚ), (0 : ℚ))) _
      (by simp [fitBootstrapRows])⟩

/-- C8: constructing an `OLSRobust` model emits `MissingValueWarning` exactly
once if and only if the source table contains a missing value anywhere, and
construction always succeeds, storing the inputs unchanged (no code path
raises an error; `warnings.warn` does not interrupt execution). -/
theorem ols_robust_init_warning (y x : List String)
    (rows : List (List (Option ℚ))) :
    ((olsRobustInit y x rows).1 = [WarningKind.missingValueWarning] ↔
      hasMissing rows = true) ∧
    ((olsRobustInit y x rows).1 = [] ↔ hasMissing rows = false) ∧
    (olsRobustInit y x rows).2 = (y, x, rows) := by
  unfold olsRobustInit
  by_cases h : hasMissing rows <;> simp [h]

theorem foldl_overwrite_last {S B : Type} (g : S → B) :
    ∀ (specs : List S) (acc : Option B) (h : specs ≠ []),
      specs.foldl (fun _ s => some (g s)) acc = some (g (specs.getLast h))
  | [s], _, _ => by simp
  | s :: s2 :: rest, acc, _ => by
      rw [List.foldl_cons,
        foldl_overwrite_last g (s2 :: rest) (some (g s)) (by simp)]
      rfl

theorem foldl_nested_overwrite_last {Y S B : Type} (full : Y → S → B)
    (specs : List S) (hs : specs ≠ []) :
    ∀ (ys : List Y) (acc : Option B) (hy : ys ≠ []),
      ys.foldl (fun a y => specs.foldl (fun _ s => some (full y s)) a) acc =
        some (full (ys.getLast hy) (specs.getLast hs))
  | [y], acc, _ => by
      rw [List.foldl_cons, List.foldl_nil,
        foldl_overwrite_last (full y) specs acc hs]
      simp
  | y :: y2 :: rest, acc, _ => by
      rw [List.foldl_cons,
        foldl_nested_overwrite_last full specs hs (y2 :: rest) _ (by simp)]
      rfl

/-- C9: in multiple-outcome mode, the `all_b` (and symmetrically `all_p`)
value handed to `OLSResult` is the full-sample output of the last
(composite outcome, specification) iteration only — `b_all` is a loop
variable overwritten each iteration — whereas single-outcome mode collects
one entry per specification. -/
theorem fit_multi_all_b_last_only {Y S B : Type} (ys : List Y)
    (specs : List S) (full : Y → S → B) (f1 : S → B) (hy : ys ≠ [])
    (hs : specs ≠ []) :
    (∃ y s, ys.getLast? = some y ∧ specs.getLast? = some s ∧
        fitMultiAllB ys specs full = some (full y s)) ∧
    (fitSingleAllB specs f1).length = specs.length := by
  refine ⟨⟨ys.getLast hy, specs.getLast hs, ?_, ?_, ?_⟩, ?_⟩
  · rw [List.getLast?_eq_getLast ys hy]
  · rw [List.getLast?_eq_getLast specs hs]
  · exact foldl_nested_overwrite_last full specs hs ys none hy
  · simp [fitSingleAllB]

/-- Witness for C9 at one composite outcome and two specifications. -/
theorem fit_multi_all_b_last_only_witness :
    (([10] : List ℕ) ≠ [] ∧ ([1, 2] : List ℕ) ≠ []) ∧
    ((∃ y s, ([10] : List ℕ).getLast? = some y ∧
        ([1, 2] : List ℕ).getLast? = some s ∧
        fitMultiAllB [10] [1, 2] (fun y s => (y, s)) = some ((fun y s => (y, s)) y s)) ∧
      (fitSingleAllB [1, 2] (fun s => s)).length = ([1, 2] : List ℕ).length) :=
  ⟨⟨by decide, by decide⟩,
    fit_multi_all_b_last_only [10] [1, 2] (fun y s => (y, s)) (fun s => s)
      (by decide) (by decide)⟩

/-- C10: with `replace=False` and `sample_size` left at its default (the full
source row count), any specification whose listwise deletion drops at least
one row makes every row-level (no-group) bootstrap draw request more rows
without replacement than the specification sample contains, so the draw fails
with a pandas `ValueError` instead of returning a coefficient. -/
theorem default_sample_size_without_replacement_fails
    (rows : List (List (Option ℚ))) (pick : ℕ → ℕ)
    (ols : List (List ℚ) → ℚ × ℚ)
    (hdrop : (dropna rows).length < rows.length) :
    strapOLSNoGroup (dropna rows) (defaultSampleSize rows.length) false pick ols
      = none := by
  unfold strapOLSNoGroup pandasSample defaultSampleSize
  rw [if_pos ⟨rfl, hdrop⟩]
  rfl

/-- Witness for C10 at a concrete two-row table whose second row has a
missing value. -/
theorem default_sample_size_without_replacement_fails_witness :
    (dropna [[some 1], [none]]).length <
      ([[some 1], [none]] : List (List (Option ℚ))).length ∧
    strapOLSNoGroup (dropna [[some 1], [none]])
        (defaultSampleSize ([[some 1], [none]] : List (List (Option ℚ))).length)
        false (fun _ => 0) (fun _ => (0, 0)) = none :=
  ⟨by decide,
    default_sample_size_without_replacement_fails [[some 1], [none]]
      (fun _ => 0) (fun _ => (0, 0)) (by decide)⟩
